import Mathlib

/-!
Verification of the plasma-core range ledger.

The repository tracks ownership of half-open numeric ranges `[start, end)`
per account.  The algorithmic core (the range service: `addRange`,
`removeRange`, `pickRanges`) is specified in §4.1 of the spec and pinned by
the unit tests in `test/services/test-range-service.js`; the `ChainService`
consumer (`getBalances`, `addTransaction`) is embedded from
`src/unnamed/part_000`.  Machine integers of the source are arbitrary
precision (`bn.js`), modelled as `Int`.
-/

namespace Plasma

/-- A half-open numeric range `[start, end)` (one entry of an
`OwnerRangeSet`, spec §3, stored as a `[start, end]` pair in the tests). -/
structure Range where
  start : Int
  «end» : Int
  deriving Repr, DecidableEq

/-- Well-formedness of a single range (spec §3): `start < end`, `start ≥ 0`. -/
def Range.valid (r : Range) : Prop := 0 ≤ r.start ∧ r.start < r.«end»

instance (r : Range) : Decidable r.valid := instDecidableAnd

/-- The size `(end - start)` of a range. -/
def Range.size (r : Range) : Int := r.«end» - r.start

/-- Total size of a list of ranges. -/
def sizes (rs : List Range) : Int := (rs.map Range.size).sum

/-- Error kinds of the range ledger (spec §7). -/
inductive RangeError where
  | invalidRange
  | rangeNotOwned
  | insufficientBalance
  deriving Repr, DecidableEq

/-- Separation of two ranges: the first ends strictly before the second
starts (no overlap and no adjacency). -/
def sep (a b : Range) : Prop := a.«end» < b.start

instance (a b : Range) : Decidable (sep a b) := Int.decLt _ _

/-- The persisted-set invariant of an `OwnerRangeSet` (spec §3): entries are
sorted ascending, pairwise non-overlapping and non-adjacent, and each entry
is well-formed. -/
def ValidSet (rs : List Range) : Prop :=
  rs.Pairwise sep ∧ ∀ r ∈ rs, r.valid

/-- Entries strictly left of the new range (they end before it starts). -/
def beforeOf (rs : List Range) (n : Range) : List Range :=
  rs.filter fun r => decide (r.«end» < n.start)

/-- Entries that touch the new range: they overlap it or are adjacent to
it, so they get absorbed into the coalesced range (spec §4.1 steps 3–4). -/
def touchOf (rs : List Range) (n : Range) : List Range :=
  rs.filter fun r => decide (n.start ≤ r.«end») && decide (r.start ≤ n.«end»)

/-- Entries strictly right of the new range (they start after it ends). -/
def afterOf (rs : List Range) (n : Range) : List Range :=
  rs.filter fun r => decide (n.«end» < r.start)

/-- The coalesced range: the new range merged with everything it touches,
spanning from the least involved `start` to the greatest involved `end`. -/
def mergedOf (rs : List Range) (n : Range) : Range :=
  ⟨(touchOf rs n).foldl (fun m r => min m r.start) n.start,
   (touchOf rs n).foldl (fun m r => max m r.«end») n.«end»⟩

/-- Modelled from the spec: the insert-with-coalesce algorithm of
`addRange` (spec §4.1; the range service source is not in the repository
snapshot, only its unit tests).  All entries touching the new range are
replaced by the single coalesced range at its sorted position; all other
entries are kept unchanged in order. -/
def addRangeAux (rs : List Range) (n : Range) : List Range :=
  beforeOf rs n ++ mergedOf rs n :: afterOf rs n

/-- Modelled from the spec: `addRange` (spec §4.1).  Rejects a malformed
range (`start >= end` or `start < 0`) with `InvalidRangeError`, otherwise
inserts it with coalescing. -/
def addRange (rs : List Range) (n : Range) : Except RangeError (List Range) :=
  if n.start < 0 ∨ n.«end» ≤ n.start then .error .invalidRange
  else .ok (addRangeAux rs n)

/-- The zero, one or two ranges left over when the target `t` is carved out
of its containing range `c` (spec §4.1 removeRange case split). -/
def removePieces (c t : Range) : List Range :=
  (if c.start < t.start then [⟨c.start, t.start⟩] else []) ++
  (if t.«end» < c.«end» then [⟨t.«end», c.«end»⟩] else [])

/-- Modelled from the spec: the search-and-carve loop of `removeRange`.
Finds the first range containing the target and replaces it with the
remaining pieces; `none` when no containing range exists. -/
def removeRangeAux : List Range → Range → Option (List Range)
  | [], _ => none
  | r :: rest, t =>
    if r.start ≤ t.start ∧ t.«end» ≤ r.«end» then
      some (removePieces r t ++ rest)
    else
      (removeRangeAux rest t).map (r :: ·)

/-- Modelled from the spec: `removeRange` (spec §4.1).  Rejects a malformed
target with `InvalidRangeError`; fails with `RangeNotOwnedError` when no
owned range fully contains the target. -/
def removeRange (rs : List Range) (t : Range) : Except RangeError (List Range) :=
  if t.start < 0 ∨ t.«end» ≤ t.start then .error .invalidRange
  else
    match removeRangeAux rs t with
    | none => .error .rangeNotOwned
    | some rs2 => .ok rs2

/-- Modelled from the spec: the greedy accumulation loop of `pickRanges`
(spec §4.1): take whole ranges in ascending order until the running total
reaches the requested amount; `none` when the ranges run out first. -/
def pickRangesAux : List Range → Int → Option (List Range × Int)
  | [], amount => if amount ≤ 0 then some ([], 0) else none
  | r :: rest, amount =>
    if amount ≤ r.size then some ([r], r.size)
    else
      match pickRangesAux rest (amount - r.size) with
      | none => none
      | some (sel, tot) => some (r :: sel, r.size + tot)

/-- Modelled from the spec: `pickRanges` (spec §4.1).  Fails with
`InsufficientBalanceError` when the owner's total is below the requested
amount. -/
def pickRanges (rs : List Range) (amount : Int) :
    Except RangeError (List Range × Int) :=
  match pickRangesAux rs amount with
  | none => .error .insufficientBalance
  | some res => .ok res

-- The model reproduces every scenario of `test/services/test-range-service.js`
-- and §8 of the spec.
example : addRange [] ⟨0, 100⟩ = .ok [⟨0, 100⟩] := rfl
example : addRange [⟨200, 205⟩] ⟨0, 100⟩ = .ok [⟨0, 100⟩, ⟨200, 205⟩] := rfl
example : addRange [⟨0, 80⟩, ⟨200, 210⟩] ⟨80, 100⟩ =
    .ok [⟨0, 100⟩, ⟨200, 210⟩] := rfl
example : addRange [⟨0, 80⟩, ⟨200, 210⟩] ⟨110, 200⟩ =
    .ok [⟨0, 80⟩, ⟨110, 210⟩] := rfl
example : addRange [⟨0, 99⟩, ⟨200, 205⟩] ⟨100, 200⟩ =
    .ok [⟨0, 99⟩, ⟨100, 205⟩] := rfl
example : addRange [⟨0, 80⟩, ⟨200, 210⟩] ⟨80, 200⟩ = .ok [⟨0, 210⟩] := rfl
example : addRange [⟨0, 80⟩, ⟨81, 82⟩, ⟨93, 97⟩, ⟨200, 210⟩] ⟨100, 150⟩ =
    .ok [⟨0, 80⟩, ⟨81, 82⟩, ⟨93, 97⟩, ⟨100, 150⟩, ⟨200, 210⟩] := rfl
example : addRange [] ⟨-50, 100⟩ = .error .invalidRange := rfl
example : pickRanges [⟨0, 150⟩] 120 = .ok ([⟨0, 150⟩], 150) := rfl
example : removeRange [⟨0, 150⟩] ⟨20, 30⟩ =
    .ok [⟨0, 20⟩, ⟨30, 150⟩] := rfl
example : removeRange [⟨0, 150⟩] ⟨160, 170⟩ = .error .rangeNotOwned := rfl

/-! ### Basic facts about the filters and folds of `addRangeAux` -/

theorem mem_beforeOf {rs : List Range} {n b : Range} (h : b ∈ beforeOf rs n) :
    b ∈ rs ∧ b.«end» < n.start := by
  simpa [beforeOf, List.mem_filter] using h

theorem mem_touchOf {rs : List Range} {n t : Range} (h : t ∈ touchOf rs n) :
    t ∈ rs ∧ n.start ≤ t.«end» ∧ t.start ≤ n.«end» := by
  simpa [touchOf, List.mem_filter, and_assoc] using h

theorem mem_afterOf {rs : List Range} {n a : Range} (h : a ∈ afterOf rs n) :
    a ∈ rs ∧ n.«end» < a.start := by
  simpa [afterOf, List.mem_filter] using h

theorem beforeOf_cons_pos {r n : Range} {rest : List Range}
    (h : r.«end» < n.start) :
    beforeOf (r :: rest) n = r :: beforeOf rest n := by
  simp [beforeOf, List.filter_cons, h]

theorem beforeOf_cons_neg {r n : Range} {rest : List Range}
    (h : ¬r.«end» < n.start) :
    beforeOf (r :: rest) n = beforeOf rest n := by
  simp [beforeOf, List.filter_cons, h]

theorem touchOf_cons_pos {r n : Range} {rest : List Range}
    (h1 : n.start ≤ r.«end») (h2 : r.start ≤ n.«end») :
    touchOf (r :: rest) n = r :: touchOf rest n := by
  simp [touchOf, List.filter_cons, h1, h2]

theorem touchOf_cons_neg {r n : Range} {rest : List Range}
    (h : ¬(n.start ≤ r.«end» ∧ r.start ≤ n.«end»)) :
    touchOf (r :: rest) n = touchOf rest n := by
  rcases Decidable.not_and_iff_or_not.mp h with h1 | h1 <;>
    simp [touchOf, List.filter_cons, h1]

theorem afterOf_cons_pos {r n : Range} {rest : List Range}
    (h : n.«end» < r.start) :
    afterOf (r :: rest) n = r :: afterOf rest n := by
  simp [afterOf, List.filter_cons, h]

theorem afterOf_cons_neg {r n : Range} {rest : List Range}
    (h : ¬n.«end» < r.start) :
    afterOf (r :: rest) n = afterOf rest n := by
  simp [afterOf, List.filter_cons, h]

theorem beforeOf_eq_nil {rs : List Range} {n : Range}
    (h : ∀ r ∈ rs, ¬r.«end» < n.start) : beforeOf rs n = [] := by
  simpa [beforeOf, List.filter_eq_nil_iff] using h

theorem touchOf_eq_nil {rs : List Range} {n : Range}
    (h : ∀ r ∈ rs, ¬(n.start ≤ r.«end» ∧ r.start ≤ n.«end»)) :
    touchOf rs n = [] := by
  rw [touchOf, List.filter_eq_nil_iff]
  intro r hr
  rcases Decidable.not_and_iff_or_not.mp (h r hr) with h1 | h1 <;> simp [h1]

theorem foldl_min_le_init (l : List Range) (a : Int) :
    l.foldl (fun m r => min m r.start) a ≤ a := by
  induction l generalizing a with
  | nil => exact le_refl a
  | cons r rest ih =>
    exact le_trans (ih (min a r.start)) (min_le_left _ _)

theorem foldl_min_le_mem {l : List Range} {t : Range} (a : Int) (h : t ∈ l) :
    l.foldl (fun m r => min m r.start) a ≤ t.start := by
  induction l generalizing a with
  | nil => cases h
  | cons r rest ih =>
    rcases List.mem_cons.mp h with rfl | h2
    · exact le_trans (foldl_min_le_init rest _) (min_le_right _ _)
    · exact ih _ h2

theorem foldl_min_cases (l : List Range) (a : Int) :
    l.foldl (fun m r => min m r.start) a = a ∨
      ∃ t ∈ l, l.foldl (fun m r => min m r.start) a = t.start := by
  induction l generalizing a with
  | nil => exact Or.inl rfl
  | cons r rest ih =>
    rcases ih (min a r.start) with h | ⟨t, ht, he⟩
    · rcases min_choice a r.start with hm | hm
      · exact Or.inl (by rw [List.foldl_cons, h, hm])
      · exact Or.inr ⟨r, by simp, by rw [List.foldl_cons, h, hm]⟩
    · exact Or.inr ⟨t, List.mem_cons_of_mem _ ht, he⟩

theorem le_foldl_max_init (l : List Range) (a : Int) :
    a ≤ l.foldl (fun m r => max m r.«end») a := by
  induction l generalizing a with
  | nil => exact le_refl a
  | cons r rest ih =>
    exact le_trans (le_max_left _ _) (ih (max a r.«end»))

theorem le_foldl_max_mem {l : List Range} {t : Range} (a : Int) (h : t ∈ l) :
    t.«end» ≤ l.foldl (fun m r => max m r.«end») a := by
  induction l generalizing a with
  | nil => cases h
  | cons r rest ih =>
    rcases List.mem_cons.mp h with rfl | h2
    · exact le_trans (le_max_right _ _) (le_foldl_max_init rest _)
    · exact ih _ h2

theorem foldl_max_cases (l : List Range) (a : Int) :
    l.foldl (fun m r => max m r.«end») a = a ∨
      ∃ t ∈ l, l.foldl (fun m r => max m r.«end») a = t.«end» := by
  induction l generalizing a with
  | nil => exact Or.inl rfl
  | cons r rest ih =>
    rcases ih (max a r.«end») with h | ⟨t, ht, he⟩
    · rcases max_choice a r.«end» with hm | hm
      · exact Or.inl (by rw [List.foldl_cons, h, hm])
      · exact Or.inr ⟨r, by simp, by rw [List.foldl_cons, h, hm]⟩
    · exact Or.inr ⟨t, List.mem_cons_of_mem _ ht, he⟩

/-! ### The sorted decomposition of a valid set around a new range -/

theorem ValidSet.tail {r : Range} {rest : List Range}
    (h : ValidSet (r :: rest)) : ValidSet rest :=
  ⟨(List.pairwise_cons.mp h.1).2, fun x hx => h.2 x (List.mem_cons_of_mem _ hx)⟩

theorem ValidSet.head_sep {r : Range} {rest : List Range}
    (h : ValidSet (r :: rest)) : ∀ x ∈ rest, sep r x :=
  (List.pairwise_cons.mp h.1).1

/-- In a valid (sorted, separated) set, the entries left of, touching, and
right of a well-formed range `n` are three consecutive blocks. -/
theorem valid_decomp {n : Range} (hn : n.valid) :
    ∀ {rs : List Range}, ValidSet rs →
      rs = beforeOf rs n ++ touchOf rs n ++ afterOf rs n := by
  intro rs
  induction rs with
  | nil => intro _; rfl
  | cons r rest ih =>
    intro hv
    have hrok : r.valid := hv.2 r (List.mem_cons_self r rest)
    have hsep := hv.head_sep
    have hrest := hv.tail
    by_cases hb : r.«end» < n.start
    · -- `r` lies strictly left of `n`.
      have h2 : ¬(n.start ≤ r.«end» ∧ r.start ≤ n.«end») := by
        intro hx; omega
      have h3 : ¬n.«end» < r.start := by
        rcases hrok with ⟨_, _⟩; rcases hn with ⟨_, _⟩; omega
      rw [beforeOf_cons_pos hb, touchOf_cons_neg h2, afterOf_cons_neg h3,
        List.cons_append, List.cons_append]
      exact congrArg (r :: ·) (ih hrest)
    · by_cases ht : r.start ≤ n.«end»
      · -- `r` touches `n`.
        have h3 : ¬n.«end» < r.start := by omega
        have hbn : beforeOf rest n = [] := by
          refine beforeOf_eq_nil fun x hx => ?_
          have := hsep x hx
          have hxok := hrest.2 x hx
          rcases hxok with ⟨_, _⟩
          simp only [sep] at this
          omega
        rw [beforeOf_cons_neg hb, touchOf_cons_pos (by omega) ht,
          afterOf_cons_neg h3, hbn]
        have := ih hrest
        rw [hbn, List.nil_append] at this
        rw [List.nil_append, List.cons_append]
        exact congrArg (r :: ·) this
      · -- `r` lies strictly right of `n`.
        have ha : n.«end» < r.start := by omega
        have hbn : beforeOf rest n = [] := by
          refine beforeOf_eq_nil fun x hx => ?_
          have := hsep x hx
          have hxok := hrest.2 x hx
          rcases hxok with ⟨_, _⟩
          rcases hn with ⟨_, _⟩
          simp only [sep] at this
          omega
        have htn : touchOf rest n = [] := by
          refine touchOf_eq_nil fun x hx => ?_
          have := hsep x hx
          rcases hrok with ⟨_, _⟩
          simp only [sep] at this
          intro hx2
          omega
        rw [beforeOf_cons_neg hb,
          touchOf_cons_neg (fun hx => absurd hx.2 (by omega)),
          afterOf_cons_pos ha, hbn, htn]
        have := ih hrest
        rw [hbn, htn, List.nil_append, List.nil_append] at this
        simpa using congrArg (r :: ·) this

/-- The cross-block separation facts obtained from sortedness of the
decomposition. -/
theorem pairwise_triple {l1 l2 l3 : List Range}
    (h : List.Pairwise sep (l1 ++ l2 ++ l3)) :
    (∀ b ∈ l1, ∀ t ∈ l2, sep b t) ∧ (∀ b ∈ l1, ∀ a ∈ l3, sep b a) ∧
      (∀ t ∈ l2, ∀ a ∈ l3, sep t a) := by
  rw [List.pairwise_append] at h
  obtain ⟨h12, _, hcross⟩ := h
  rw [List.pairwise_append] at h12
  exact ⟨h12.2.2,
    fun b hb a ha => hcross b (List.mem_append_left _ hb) a ha,
    fun t ht a ha => hcross t (List.mem_append_right _ ht) a ha⟩

theorem decomp_sep {rs : List Range} {n : Range} (hv : ValidSet rs)
    (hn : n.valid) :
    (∀ b ∈ beforeOf rs n, ∀ t ∈ touchOf rs n, sep b t) ∧
      (∀ b ∈ beforeOf rs n, ∀ a ∈ afterOf rs n, sep b a) ∧
      (∀ t ∈ touchOf rs n, ∀ a ∈ afterOf rs n, sep t a) :=
  pairwise_triple (by rw [← valid_decomp hn hv]; exact hv.1)

theorem mergedOf_valid {rs : List Range} {n : Range} (hv : ValidSet rs)
    (hn : n.valid) : (mergedOf rs n).valid := by
  constructor
  · rcases foldl_min_cases (touchOf rs n) n.start with h | ⟨t, ht, he⟩
    · show 0 ≤ (touchOf rs n).foldl (fun m r => min m r.start) n.start
      rw [h]; exact hn.1
    · show 0 ≤ (touchOf rs n).foldl (fun m r => min m r.start) n.start
      rw [he]; exact (hv.2 t (mem_touchOf ht).1).1
  · calc (mergedOf rs n).start ≤ n.start := foldl_min_le_init _ _
      _ < n.«end» := hn.2
      _ ≤ (mergedOf rs n).«end» := le_foldl_max_init _ _

/-- `addRangeAux` preserves the persisted-set invariant. -/
theorem addRangeAux_valid {rs : List Range} {n : Range} (hv : ValidSet rs)
    (hn : n.valid) : ValidSet (addRangeAux rs n) := by
  obtain ⟨h12, h13, h23⟩ := decomp_sep hv hn
  have hpb : List.Pairwise sep (beforeOf rs n) :=
    hv.1.sublist (List.filter_sublist _)
  have hpa : List.Pairwise sep (afterOf rs n) :=
    hv.1.sublist (List.filter_sublist _)
  constructor
  · rw [addRangeAux, List.pairwise_append]
    refine ⟨hpb, ?_, ?_⟩
    · rw [List.pairwise_cons]
      refine ⟨fun a ha => ?_, hpa⟩
      show (mergedOf rs n).«end» < a.start
      rcases foldl_max_cases (touchOf rs n) n.«end» with h | ⟨t, ht, he⟩
      · show (touchOf rs n).foldl (fun m r => max m r.«end») n.«end» < a.start
        rw [h]; exact (mem_afterOf ha).2
      · show (touchOf rs n).foldl (fun m r => max m r.«end») n.«end» < a.start
        rw [he]; exact h23 t ht a ha
    · intro b hb x hx
      rcases List.mem_cons.mp hx with rfl | hx2
      · show b.«end» < (mergedOf rs n).start
        rcases foldl_min_cases (touchOf rs n) n.start with h | ⟨t, ht, he⟩
        · show b.«end» < (touchOf rs n).foldl (fun m r => min m r.start) n.start
          rw [h]; exact (mem_beforeOf hb).2
        · show b.«end» < (touchOf rs n).foldl (fun m r => min m r.start) n.start
          rw [he]; exact h12 b hb t ht
      · exact h13 b hb x hx2
  · intro x hx
    rw [addRangeAux] at hx
    rcases List.mem_append.mp hx with hx | hx
    · exact hv.2 x (mem_beforeOf hx).1
    · rcases List.mem_cons.mp hx with rfl | hx2
      · exact mergedOf_valid hv hn
      · exact hv.2 x (mem_afterOf hx2).1

/-- A successful `addRange` yields a set satisfying the invariant. -/
theorem addRange_valid {rs out : List Range} {n : Range} (hv : ValidSet rs)
    (h : addRange rs n = .ok out) : ValidSet out := by
  rw [addRange] at h
  split at h
  · cases h
  · next hc =>
    cases h
    have hn : n.valid := by
      rw [Range.valid]; push_neg at hc; omega
    exact addRangeAux_valid hv hn

/-- Every range surviving `removeRangeAux` lies inside some original range. -/
theorem removeRangeAux_mem_bound {t : Range} (ht : t.valid) :
    ∀ {rs out : List Range}, removeRangeAux rs t = some out →
      ∀ x ∈ out, ∃ c ∈ rs, c.start ≤ x.start ∧ x.«end» ≤ c.«end» := by
  intro rs
  induction rs with
  | nil => intro out h; cases h
  | cons r rest ih =>
    intro out h x hx
    rw [removeRangeAux] at h
    split at h
    · next hc =>
      cases h
      rcases List.mem_append.mp hx with hp | hr
      · rw [removePieces] at hp
        rcases List.mem_append.mp hp with h1 | h2
        · refine ⟨r, List.mem_cons_self r rest, ?_⟩
          rcases ht with ⟨_, _⟩
          split at h1 <;> simp_all <;> omega
        · refine ⟨r, List.mem_cons_self r rest, ?_⟩
          rcases ht with ⟨_, _⟩
          split at h2 <;> simp_all <;> omega
      · exact ⟨x, List.mem_cons_of_mem _ hr, le_refl _, le_refl _⟩
    · rcases Option.map_eq_some'.mp h with ⟨out2, h2, rfl⟩
      rcases List.mem_cons.mp hx with rfl | hx2
      · exact ⟨x, List.mem_cons_self x rest, le_refl _, le_refl _⟩
      · rcases ih h2 x hx2 with ⟨c, hc, hb⟩
        exact ⟨c, List.mem_cons_of_mem _ hc, hb⟩

/-- `removeRangeAux` preserves the persisted-set invariant. -/
theorem removeRangeAux_valid {t : Range} (ht : t.valid) :
    ∀ {rs out : List Range}, ValidSet rs → removeRangeAux rs t = some out →
      ValidSet out := by
  intro rs
  induction rs with
  | nil => intro out _ h; cases h
  | cons r rest ih =>
    intro out hv h
    have hrok : r.valid := hv.2 r (List.mem_cons_self r rest)
    rw [removeRangeAux] at h
    split at h
    · next hc =>
      cases h
      constructor
      · rw [List.pairwise_append]
        refine ⟨?_, hv.tail.1, ?_⟩
        · rw [removePieces]
          rcases ht with ⟨_, _⟩
          split <;> split <;> simp_all [sep] <;> omega
        · intro p hp x hx
          have hsep := hv.head_sep x hx
          rw [removePieces] at hp
          rcases ht with ⟨_, _⟩
          simp only [sep] at hsep ⊢
          rcases List.mem_append.mp hp with h1 | h2
          · split at h1 <;> simp_all <;> omega
          · split at h2 <;> simp_all <;> omega
      · intro x hx
        rcases List.mem_append.mp hx with hp | hr
        · rw [removePieces] at hp
          rcases ht with ⟨_, _⟩
          rcases hrok with ⟨_, _⟩
          rw [Range.valid]
          rcases List.mem_append.mp hp with h1 | h2
          · split at h1 <;> simp_all <;> omega
          · split at h2 <;> simp_all <;> omega
        · exact hv.tail.2 x hr
    · rcases Option.map_eq_some'.mp h with ⟨out2, h2, rfl⟩
      have hv2 := ih hv.tail h2
      constructor
      · rw [List.pairwise_cons]
        refine ⟨fun x hx => ?_, hv2.1⟩
        rcases removeRangeAux_mem_bound ht h2 x hx with ⟨c, hcm, hb1, hb2⟩
        have := hv.head_sep c hcm
        simp only [sep] at this ⊢
        omega
      · intro x hx
        rcases List.mem_cons.mp hx with rfl | hx2
        · exact hrok
        · exact hv2.2 x hx2

/-- A successful `removeRange` yields a set satisfying the invariant. -/
theorem removeRange_valid {rs out : List Range} {t : Range} (hv : ValidSet rs)
    (h : removeRange rs t = .ok out) : ValidSet out := by
  rw [removeRange] at h
  split at h
  · cases h
  · next hc =>
    have ht : t.valid := by rw [Range.valid]; push_neg at hc; omega
    split at h
    · cases h
    · next heq => cases h; exact removeRangeAux_valid ht hv heq

/-! ### C1: the persisted-set invariants after addRange / removeRange -/

/-- Entries are sorted ascending by `start`. -/
def sortedByStart (rs : List Range) : Prop :=
  rs.Pairwise fun a b => a.start < b.start

/-- No two entries overlap. -/
def noOverlap (rs : List Range) : Prop :=
  rs.Pairwise fun a b => a.«end» ≤ b.start ∨ b.«end» ≤ a.start

/-- No entry's `end` equals the next entry's `start`. -/
def noAdjacent (rs : List Range) : Prop :=
  rs.Chain' fun a b => a.«end» ≠ b.start

theorem validSet_props {rs : List Range} (h : ValidSet rs) :
    sortedByStart rs ∧ noOverlap rs ∧ noAdjacent rs := by
  obtain ⟨hp, hok⟩ := h
  refine ⟨?_, ?_, ?_⟩
  · rw [sortedByStart]
    refine List.Pairwise.imp_of_mem ?_ hp
    intro a b ha _ hs
    have := (hok a ha).2
    simp only [sep] at hs
    omega
  · exact hp.imp fun hs => Or.inl (le_of_lt hs)
  · exact List.Pairwise.chain' (hp.imp fun hs => ne_of_lt hs)

/-- C1: for every valid `OwnerRangeSet` and every successful `addRange` or
`removeRange` call, the resulting persisted sequence is sorted ascending by
`start`, no two entries overlap, and no two entries are adjacent. -/
theorem addRange_removeRange_invariants (rs : List Range) (n t : Range)
    (out : List Range) (hv : ValidSet rs)
    (h : addRange rs n = .ok out ∨ removeRange rs t = .ok out) :
    sortedByStart out ∧ noOverlap out ∧ noAdjacent out := by
  rcases h with h | h
  · exact validSet_props (addRange_valid hv h)
  · exact validSet_props (removeRange_valid hv h)

/-- Witness for C1 at a concrete call: adding `[0, 100)` to the empty set. -/
theorem addRange_removeRange_invariants_witness :
    sortedByStart [(⟨0, 100⟩ : Range)] ∧ noOverlap [(⟨0, 100⟩ : Range)] ∧
      noAdjacent [(⟨0, 100⟩ : Range)] :=
  addRange_removeRange_invariants [] ⟨0, 100⟩ ⟨0, 1⟩ [⟨0, 100⟩]
    ⟨List.Pairwise.nil, by simp⟩ (Or.inl rfl)

/-! ### C2: removeRange fails iff no containing range, else carves it -/

theorem removeRangeAux_eq_none {t : Range} :
    ∀ {rs : List Range}, (removeRangeAux rs t = none ↔
      ∀ r ∈ rs, ¬(r.start ≤ t.start ∧ t.«end» ≤ r.«end»)) := by
  intro rs
  induction rs with
  | nil => simp [removeRangeAux]
  | cons r rest ih =>
    rw [removeRangeAux]
    constructor
    · intro h x hx
      split at h
      · cases h
      · next hc =>
        have h2 : removeRangeAux rest t = none := by
          rcases hmap : removeRangeAux rest t with _ | v
          · rfl
          · rw [hmap] at h; cases h
        rcases List.mem_cons.mp hx with rfl | hx2
        · exact hc
        · exact ih.mp h2 x hx2
    · intro h
      rw [if_neg (h r (List.mem_cons_self r rest)),
        ih.mpr fun x hx => h x (List.mem_cons_of_mem _ hx)]
      rfl

theorem removeRangeAux_found {t c : Range} (hc1 : c.start ≤ t.start)
    (hc2 : t.«end» ≤ c.«end») :
    ∀ (pre : List Range) (post : List Range),
      (∀ p ∈ pre, ¬(p.start ≤ t.start ∧ t.«end» ≤ p.«end»)) →
      removeRangeAux (pre ++ c :: post) t =
        some (pre ++ removePieces c t ++ post) := by
  intro pre
  induction pre with
  | nil =>
    intro post _
    simp only [List.nil_append]
    rw [removeRangeAux, if_pos ⟨hc1, hc2⟩]
  | cons p pre ih =>
    intro post hpre
    rw [List.cons_append, removeRangeAux,
      if_neg (hpre p (List.mem_cons_self p pre)),
      ih post fun x hx => hpre x (List.mem_cons_of_mem _ hx)]
    rfl

/-- C2: for a well-formed target and a valid owned set, `removeRange`
fails with `RangeNotOwnedError` exactly when no owned range fully contains
the target; otherwise it replaces the containing range with the leftover
pieces (nothing for an exact match, the left remainder and/or the right
remainder otherwise), leaving every other range unchanged. -/
theorem removeRange_spec (rs : List Range) (t : Range) (hv : ValidSet rs)
    (ht : t.valid) :
    (removeRange rs t = .error .rangeNotOwned ↔
      ∀ r ∈ rs, ¬(r.start ≤ t.start ∧ t.«end» ≤ r.«end»)) ∧
    ∀ pre c post, rs = pre ++ c :: post →
      c.start ≤ t.start → t.«end» ≤ c.«end» →
      removeRange rs t = .ok (pre ++ removePieces c t ++ post) := by
  have hnv : ¬(t.start < 0 ∨ t.«end» ≤ t.start) := by
    rcases ht with ⟨_, _⟩; omega
  constructor
  · rw [removeRange, if_neg hnv]
    constructor
    · intro h
      rcases haux : removeRangeAux rs t with _ | v
      · exact removeRangeAux_eq_none.mp haux
      · rw [haux] at h; cases h
    · intro h
      rw [removeRangeAux_eq_none.mpr h]
  · intro pre c post hdec hc1 hc2
    subst hdec
    have hpre : ∀ p ∈ pre, ¬(p.start ≤ t.start ∧ t.«end» ≤ p.«end») := by
      intro p hp hcont
      have hcross := (List.pairwise_append.mp hv.1).2.2
      have hsep := hcross p hp c (List.mem_cons_self c post)
      simp only [sep] at hsep
      rcases ht with ⟨_, _⟩
      omega
    rw [removeRange, if_neg hnv, removeRangeAux_found hc1 hc2 pre post hpre]

/-- Witness for C2: removing `[22, 25)` from `[[0, 10), [20, 30)]`. -/
theorem removeRange_spec_witness :
    ((removeRange [⟨0, 10⟩, ⟨20, 30⟩] ⟨22, 25⟩ = .error .rangeNotOwned ↔
      ∀ r ∈ [(⟨0, 10⟩ : Range), ⟨20, 30⟩],
        ¬(r.start ≤ (22 : Int) ∧ (25 : Int) ≤ r.«end»)) ∧
    ∀ pre c post, [(⟨0, 10⟩ : Range), ⟨20, 30⟩] = pre ++ c :: post →
      c.start ≤ (22 : Int) → (25 : Int) ≤ c.«end» →
      removeRange [⟨0, 10⟩, ⟨20, 30⟩] ⟨22, 25⟩ =
        .ok (pre ++ removePieces c ⟨22, 25⟩ ++ post)) :=
  removeRange_spec [⟨0, 10⟩, ⟨20, 30⟩] ⟨22, 25⟩
    ⟨by simp [sep], by decide⟩ (by decide)

/-! ### C3: a gap-filling addRange coalesces all three ranges into one -/

theorem beforeOf_append {l1 l2 : List Range} {n : Range} :
    beforeOf (l1 ++ l2) n = beforeOf l1 n ++ beforeOf l2 n :=
  List.filter_append _ _

theorem touchOf_append {l1 l2 : List Range} {n : Range} :
    touchOf (l1 ++ l2) n = touchOf l1 n ++ touchOf l2 n :=
  List.filter_append _ _

theorem afterOf_append {l1 l2 : List Range} {n : Range} :
    afterOf (l1 ++ l2) n = afterOf l1 n ++ afterOf l2 n :=
  List.filter_append _ _

theorem beforeOf_eq_self {rs : List Range} {n : Range}
    (h : ∀ r ∈ rs, r.«end» < n.start) : beforeOf rs n = rs := by
  rw [beforeOf, List.filter_eq_self]
  intro r hr
  exact decide_eq_true (h r hr)

theorem afterOf_eq_self {rs : List Range} {n : Range}
    (h : ∀ r ∈ rs, n.«end» < r.start) : afterOf rs n = rs := by
  rw [afterOf, List.filter_eq_self]
  intro r hr
  exact decide_eq_true (h r hr)

theorem afterOf_eq_nil {rs : List Range} {n : Range}
    (h : ∀ r ∈ rs, ¬n.«end» < r.start) : afterOf rs n = [] := by
  simpa [afterOf, List.filter_eq_nil_iff] using h

/-- C3: when the new range exactly fills the gap between two consecutive
owned ranges (`L.end = n.start` and `n.end = R.start`), `addRange` replaces
all three by the single range spanning `L.start` to `R.end`. -/
theorem addRange_gap_fill (pre post : List Range) (L Rn n : Range)
    (hv : ValidSet (pre ++ L :: Rn :: post)) (hn : n.valid)
    (hL : L.«end» = n.start) (hR : n.«end» = Rn.start) :
    addRange (pre ++ L :: Rn :: post) n =
      .ok (pre ++ (⟨L.start, Rn.«end»⟩ : Range) :: post) := by
  have hLok : L.valid := hv.2 L (by simp)
  have hRok : Rn.valid := hv.2 Rn (by simp)
  rcases hLok with ⟨hL0, hL1⟩
  rcases hRok with ⟨hR0, hR1⟩
  rcases hn with ⟨hn0, hn1⟩
  have hcross := (List.pairwise_append.mp hv.1).2.2
  have hpostv : ∀ x ∈ post, x.valid := fun x hx =>
    hv.2 x (by simp [hx])
  have hpost : ∀ x ∈ post, sep Rn x := by
    have h2 := (List.pairwise_append.mp hv.1).2.1
    rw [List.pairwise_cons] at h2
    exact (List.pairwise_cons.mp h2.2).1
  have hpresep : ∀ p ∈ pre, sep p L := fun p hp =>
    hcross p hp L (List.mem_cons_self L _)
  have hprev : ∀ p ∈ pre, p.valid := fun p hp =>
    hv.2 p (List.mem_append_left _ hp)
  -- The three filter blocks around `n`.
  have hB : beforeOf (pre ++ L :: Rn :: post) n = pre := by
    rw [beforeOf_append,
      beforeOf_eq_self fun p hp => by
        have := hpresep p hp; simp only [sep] at this; omega,
      beforeOf_eq_nil fun r hr => ?_, List.append_nil]
    rcases List.mem_cons.mp hr with rfl | hr2
    · omega
    rcases List.mem_cons.mp hr2 with rfl | hr3
    · omega
    · have h1 := hpost r hr3
      have h2 := hpostv r hr3
      rcases h2 with ⟨_, _⟩
      simp only [sep] at h1
      omega
  have hT : touchOf (pre ++ L :: Rn :: post) n = [L, Rn] := by
    rw [touchOf_append,
      touchOf_eq_nil fun p hp => by
        have := hpresep p hp; simp only [sep] at this
        intro hx; omega,
      touchOf_cons_pos (by omega) (by omega),
      touchOf_cons_pos (by omega) (by omega),
      touchOf_eq_nil fun x hx => by
        have := hpost x hx; simp only [sep] at this
        intro h2; omega,
      List.nil_append]
  have hA : afterOf (pre ++ L :: Rn :: post) n = post := by
    rw [afterOf_append,
      afterOf_eq_nil fun p hp => by
        have h1 := hpresep p hp
        have h2 := hprev p hp
        rcases h2 with ⟨_, _⟩
        simp only [sep] at h1
        omega,
      afterOf_cons_neg (by omega), afterOf_cons_neg (by omega),
      afterOf_eq_self fun x hx => by
        have := hpost x hx; simp only [sep] at this; omega,
      List.nil_append]
  have hM : mergedOf (pre ++ L :: Rn :: post) n = ⟨L.start, Rn.«end»⟩ := by
    rw [mergedOf, hT]
    simp only [List.foldl_cons, List.foldl_nil]
    rw [Range.mk.injEq]
    constructor <;> omega
  rw [addRange, if_neg (by omega : ¬(n.start < 0 ∨ n.«end» ≤ n.start)),
    addRangeAux, hB, hM, hA]

/-- Witness for C3: `[[0, 80), [200, 210)]` plus `[80, 200)` gives
`[[0, 210)]` (the double-merge test of the repository). -/
theorem addRange_gap_fill_witness :
    addRange [⟨0, 80⟩, ⟨200, 210⟩] ⟨80, 200⟩ = .ok [⟨0, 210⟩] :=
  addRange_gap_fill [] [] ⟨0, 80⟩ ⟨200, 210⟩ ⟨80, 200⟩
    ⟨by simp [sep], by decide⟩ (by decide) rfl rfl

/-! ### C6: addRange then removeRange of the same range is the identity -/

/-- Without strict overlap, every absorbed range is adjacent: it either
ends where the new range starts or starts where it ends. -/
theorem touch_class {rs : List Range} {n : Range}
    (hno : ∀ r ∈ rs, r.«end» ≤ n.start ∨ n.«end» ≤ r.start) :
    ∀ t ∈ touchOf rs n, t.«end» = n.start ∨ t.start = n.«end» := by
  intro t ht
  rcases mem_touchOf ht with ⟨hm, h1, h2⟩
  rcases hno t hm with h | h
  · exact Or.inl (le_antisymm h h1)
  · exact Or.inr (le_antisymm h2 h)

/-- Without strict overlap, carving the added range back out of the
coalesced range returns exactly the absorbed ranges. -/
theorem removePieces_mergedOf {rs : List Range} {n : Range}
    (hv : ValidSet rs) (hn : n.valid)
    (hno : ∀ r ∈ rs, r.«end» ≤ n.start ∨ n.«end» ≤ r.start) :
    removePieces (mergedOf rs n) n = touchOf rs n := by
  have hclass := touch_class hno
  have hpw : List.Pairwise sep (touchOf rs n) :=
    hv.1.sublist (List.filter_sublist _)
  have hvt : ∀ t ∈ touchOf rs n, t.valid := fun t ht =>
    hv.2 t (mem_touchOf ht).1
  rcases hn with ⟨hn0, hn1⟩
  rcases htc : touchOf rs n with _ | ⟨a, _ | ⟨b, l⟩⟩
  · rw [mergedOf, htc]
    simp [removePieces]
  · -- a single absorbed neighbour, on the left or on the right
    have ham : a ∈ touchOf rs n := by rw [htc]; exact List.mem_cons_self a []
    have hav := hvt a ham
    rcases hav with ⟨ha0, ha1⟩
    rcases hclass a ham with haL | haR
    · have hlt : a.start < n.start := by omega
      have h1 : min n.start a.start = a.start := by omega
      have h2 : max n.«end» a.«end» = n.«end» := by omega
      rw [mergedOf, htc]
      simp only [List.foldl_cons, List.foldl_nil, h1, h2]
      rw [removePieces]
      simp only
      rw [if_pos hlt, if_neg (lt_irrefl n.«end»)]
      rw [← haL]
      rfl
    · have h1 : min n.start a.start = n.start := by omega
      have h2 : max n.«end» a.«end» = a.«end» := by omega
      rw [mergedOf, htc]
      simp only [List.foldl_cons, List.foldl_nil, h1, h2]
      rw [removePieces]
      simp only
      rw [if_neg (lt_irrefl n.start), if_pos (by omega : n.«end» < a.«end»)]
      rw [← haR]
      rfl
  · -- two absorbed neighbours: left one then right one, nothing further
    have ham : a ∈ touchOf rs n := by rw [htc]; simp
    have hbm : b ∈ touchOf rs n := by rw [htc]; simp
    rcases hvt a ham with ⟨ha0, ha1⟩
    rcases hvt b hbm with ⟨hb0, hb1⟩
    have hab : sep a b := by
      rw [htc] at hpw
      exact (List.pairwise_cons.mp hpw).1 b (List.mem_cons_self b l)
    simp only [sep] at hab
    rcases mem_touchOf ham with ⟨_, ha2, ha3⟩
    rcases mem_touchOf hbm with ⟨_, hb2, hb3⟩
    have haL : a.«end» = n.start := by
      rcases hclass a ham with h | h
      · exact h
      · omega
    have hbR : b.start = n.«end» := by
      rcases hclass b hbm with h | h
      · omega
      · exact h
    have hl : l = [] := by
      rcases l with _ | ⟨c, l2⟩
      · rfl
      · exfalso
        have hcm : c ∈ touchOf rs n := by rw [htc]; simp
        rcases mem_touchOf hcm with ⟨_, _, hc3⟩
        have hbc : sep b c := by
          rw [htc] at hpw
          have := (List.pairwise_cons.mp (List.pairwise_cons.mp hpw).2).1
          exact this c (List.mem_cons_self c l2)
        simp only [sep] at hbc
        omega
    subst hl
    have h1 : min (min n.start a.start) b.start = a.start := by omega
    have h2 : max (max n.«end» a.«end») b.«end» = b.«end» := by omega
    rw [mergedOf, htc]
    simp only [List.foldl_cons, List.foldl_nil, h1, h2]
    rw [removePieces]
    simp only
    rw [if_pos (by omega : a.start < n.start),
      if_pos (by omega : n.«end» < b.«end»), ← haL, ← hbR]
    rfl

/-- C6: for a valid set and a well-formed range that does not strictly
overlap any existing range, `addRange` followed by `removeRange` of the
identical range restores the original set. -/
theorem addRange_removeRange_inverse (rs : List Range) (n : Range)
    (mid : List Range) (hv : ValidSet rs) (hn : n.valid)
    (hno : ∀ r ∈ rs, r.«end» ≤ n.start ∨ n.«end» ≤ r.start)
    (hadd : addRange rs n = .ok mid) :
    removeRange mid n = .ok rs := by
  have hnv : ¬(n.start < 0 ∨ n.«end» ≤ n.start) := by
    rcases hn with ⟨_, _⟩; omega
  rw [addRange, if_neg hnv] at hadd
  injection hadd with hmid
  subst hmid
  have hpre : ∀ p ∈ beforeOf rs n,
      ¬(p.start ≤ n.start ∧ n.«end» ≤ p.«end») := by
    intro p hp hcont
    rcases mem_beforeOf hp with ⟨hm, hb⟩
    rcases hn with ⟨_, _⟩
    omega
  rw [removeRange, if_neg hnv, addRangeAux,
    removeRangeAux_found (foldl_min_le_init _ _) (le_foldl_max_init _ _)
      _ _ hpre,
    removePieces_mergedOf hv hn hno, ← valid_decomp hn hv]

/-- Witness for C6: adding then removing `[80, 200)` around
`[[0, 80), [200, 210)]` restores the original set. -/
theorem addRange_removeRange_inverse_witness :
    removeRange [⟨0, 210⟩] ⟨80, 200⟩ = .ok [⟨0, 80⟩, ⟨200, 210⟩] :=
  addRange_removeRange_inverse [⟨0, 80⟩, ⟨200, 210⟩] ⟨80, 200⟩ [⟨0, 210⟩]
    ⟨by simp [sep], by decide⟩ (by decide) (by decide) rfl

/-! ### C4: pickRanges greedily selects the shortest sufficient front -/

theorem sizes_nil : sizes [] = 0 := rfl

theorem sizes_cons (r : Range) (rest : List Range) :
    sizes (r :: rest) = r.size + sizes rest := by
  rw [sizes, List.map_cons, List.sum_cons]; rfl

theorem sizes_nonneg {rs : List Range} (h : ∀ r ∈ rs, r.valid) :
    0 ≤ sizes rs := by
  induction rs with
  | nil => exact le_refl 0
  | cons r rest ih =>
    have h1 := h r (List.mem_cons_self r rest)
    have h2 := ih fun x hx => h x (List.mem_cons_of_mem _ hx)
    rcases h1 with ⟨_, _⟩
    rw [sizes_cons, Range.size]
    omega

theorem pickRangesAux_spec {amount : Int} :
    ∀ {rs : List Range}, (∀ r ∈ rs, r.valid) → 0 < amount →
      (sizes rs < amount → pickRangesAux rs amount = none) ∧
      (amount ≤ sizes rs → ∃ k,
        pickRangesAux rs amount = some (rs.take k, sizes (rs.take k)) ∧
        amount ≤ sizes (rs.take k) ∧ ∀ j < k, sizes (rs.take j) < amount) := by
  intro rs
  induction rs generalizing amount with
  | nil =>
    intro _ hpos
    refine ⟨fun _ => ?_, fun hle => absurd (lt_of_le_of_lt hle hpos) (by simp [sizes_nil])⟩
    rw [pickRangesAux, if_neg (by omega)]
  | cons r rest ih =>
    intro hok hpos
    have hrok := hok r (List.mem_cons_self r rest)
    have hrestok : ∀ x ∈ rest, x.valid := fun x hx =>
      hok x (List.mem_cons_of_mem _ hx)
    have hrest0 := sizes_nonneg hrestok
    have hr0 : 0 < r.size := by
      rcases hrok with ⟨_, _⟩; rw [Range.size]; omega
    by_cases hfit : amount ≤ r.size
    · constructor
      · intro hlt
        rw [sizes_cons] at hlt
        omega
      · intro _
        refine ⟨1, ?_, ?_, ?_⟩
        · rw [pickRangesAux, if_pos hfit]
          simp [sizes_cons, sizes_nil]
        · simpa [sizes_cons, sizes_nil] using hfit
        · intro j hj
          interval_cases j
          simpa [sizes_nil] using hpos
    · have hpos2 : 0 < amount - r.size := by omega
      obtain ⟨ihn, ihs⟩ := ih hrestok hpos2
      constructor
      · intro hlt
        rw [sizes_cons] at hlt
        rw [pickRangesAux, if_neg hfit, ihn (by omega)]
      · intro hle
        rw [sizes_cons] at hle
        obtain ⟨k, hk1, hk2, hk3⟩ := ihs (by omega)
        refine ⟨k + 1, ?_, ?_, ?_⟩
        · rw [pickRangesAux, if_neg hfit, hk1, List.take_succ_cons, sizes_cons]
        · rw [List.take_succ_cons, sizes_cons]
          omega
        · intro j hj
          rcases j with _ | j2
          · simpa [sizes_nil] using hpos
          · rw [List.take_succ_cons, sizes_cons]
            have := hk3 j2 (by omega)
            omega

/-- C4: for a valid owned set and a positive amount, `pickRanges` fails
with `InsufficientBalanceError` when the total owned is below the amount,
and otherwise returns the shortest front of the owned ranges (in their
ascending order) whose sizes reach the amount, together with that exact
total. -/
theorem pickRanges_spec (rs : List Range) (amount : Int)
    (hv : ValidSet rs) (hpos : 0 < amount) :
    (sizes rs < amount → pickRanges rs amount = .error .insufficientBalance) ∧
    (amount ≤ sizes rs → ∃ k,
      pickRanges rs amount = .ok (rs.take k, sizes (rs.take k)) ∧
      amount ≤ sizes (rs.take k) ∧ ∀ j < k, sizes (rs.take j) < amount) := by
  obtain ⟨hn, hs⟩ := pickRangesAux_spec hv.2 hpos
  constructor
  · intro hlt
    rw [pickRanges, hn hlt]
  · intro hle
    obtain ⟨k, hk1, hk2, hk3⟩ := hs hle
    exact ⟨k, by rw [pickRanges, hk1], hk2, hk3⟩

/-- Witness for C4 at the §8 scenario: owned `[[0, 150)]`, amount `120`. -/
theorem pickRanges_spec_witness :
    (sizes [(⟨0, 150⟩ : Range)] < 120 →
      pickRanges [⟨0, 150⟩] 120 = .error .insufficientBalance) ∧
    ((120 : Int) ≤ sizes [(⟨0, 150⟩ : Range)] → ∃ k,
      pickRanges [⟨0, 150⟩] 120 =
        .ok (List.take k [⟨0, 150⟩], sizes (List.take k [⟨0, 150⟩])) ∧
      (120 : Int) ≤ sizes (List.take k [⟨0, 150⟩]) ∧
      ∀ j < k, sizes (List.take j [(⟨0, 150⟩ : Range)]) < 120) :=
  pickRanges_spec [⟨0, 150⟩] 120 ⟨by simp, by decide⟩ (by decide)

/-! ### C9: pickRanges is deterministic -/

/-- C9: `pickRanges` is a pure function of the owned set and the amount:
two calls against the same unchanged set return identical selections and
totals. -/
theorem pickRanges_deterministic (rs : List Range) (amount : Int)
    (out1 out2 : Except RangeError (List Range × Int))
    (h1 : pickRanges rs amount = out1) (h2 : pickRanges rs amount = out2) :
    out1 = out2 := h1 ▸ h2 ▸ rfl

/-- Witness for C9: two evaluations of the §8 scenario agree. -/
theorem pickRanges_deterministic_witness :
    (Except.ok ([(⟨0, 150⟩ : Range)], (150 : Int)) :
      Except RangeError (List Range × Int)) = .ok ([⟨0, 150⟩], 150) :=
  pickRanges_deterministic [⟨0, 150⟩] 120 _ _ rfl rfl

/-! ### The store layer: range keys and the stateful operations -/

/-- The store key of an owner's range record.  The format is pinned by the
repository's tests (`test/services/test-range-service.js` expects `db.set`
to be called with the key `ranges:` followed by the owner address, and
with no token component). -/
def rangeKey (owner : String) : String := "ranges:" ++ owner

/-- The backing key-value store for range records (spec §6): a total map
from keys to persisted range lists, empty by default. -/
def Store := String → List Range

/-- `get` of the store collaborator (absent key: no ranges). -/
def Store.get (st : Store) (k : String) : List Range := st k

/-- `set` of the store collaborator. -/
def Store.set (st : Store) (k : String) (v : List Range) : Store :=
  fun k2 => if k2 = k then v else st k2

/-- Modelled from the spec: the stateful `addRange` operation — validate,
load the owner's record, coalesce, persist (spec §4.1, §7).  The store is
returned unchanged when the call fails. -/
def addRangeOp (st : Store) (owner : String) (n : Range) :
    Store × Except RangeError (List Range) :=
  match addRange (st.get (rangeKey owner)) n with
  | .error e => (st, .error e)
  | .ok rs => (st.set (rangeKey owner) rs, .ok rs)

/-- Modelled from the spec: the stateful `removeRange` operation. -/
def removeRangeOp (st : Store) (owner : String) (t : Range) :
    Store × Except RangeError (List Range) :=
  match removeRange (st.get (rangeKey owner)) t with
  | .error e => (st, .error e)
  | .ok rs => (st.set (rangeKey owner) rs, .ok rs)

/-- C5: a malformed range (`start >= end` or `start < 0`) supplied to the
stateful `addRange` or `removeRange` fails with `InvalidRangeError` and
the persisted store is not written. -/
theorem invalid_range_no_write (st : Store) (owner : String) (n : Range)
    (h : n.«end» ≤ n.start ∨ n.start < 0) :
    addRangeOp st owner n = (st, .error .invalidRange) ∧
    removeRangeOp st owner n = (st, .error .invalidRange) := by
  have hc : n.start < 0 ∨ n.«end» ≤ n.start := by omega
  constructor
  · rw [addRangeOp, addRange, if_pos hc]
  · rw [removeRangeOp, removeRange, if_pos hc]

/-- Witness for C5 at the repository's test vector `[-50, 100]`. -/
theorem invalid_range_no_write_witness :
    addRangeOp (fun _ => []) "bob" ⟨-50, 100⟩ =
      ((fun _ => []), .error .invalidRange) ∧
    removeRangeOp (fun _ => []) "bob" ⟨-50, 100⟩ =
      ((fun _ => []), .error .invalidRange) :=
  invalid_range_no_write (fun _ => []) "bob" ⟨-50, 100⟩ (by decide)

/-! ### C8: the range key is collision-free across owners, but the token
is not part of the key -/

/-- Counterexample to C8 as stated: the pairs `("bob", token 0)` and
`("bob", token 1)` are distinct, yet both map to the same store key. -/
theorem rangeKey_token_collision :
    ("bob", (0 : Int)) ≠ ("bob", (1 : Int)) ∧
      rangeKey "bob" = rangeKey "bob" :=
  ⟨by decide, rfl⟩

/-- C8 amended: keys are collision-free across owners (distinct owners
yield distinct keys); the token does not enter the key, so all tokens of
one owner share one record key. -/
theorem rangeKey_owner_injective (o1 o2 : String) (h : o1 ≠ o2) :
    rangeKey o1 ≠ rangeKey o2 := by
  intro he
  apply h
  have hd : ("ranges:" ++ o1).data = ("ranges:" ++ o2).data :=
    congrArg String.data he
  rw [String.data_append, String.data_append] at hd
  exact String.ext (List.append_cancel_left hd)

/-- Witness for the amended C8 at two concrete owners. -/
theorem rangeKey_owner_injective_witness :
    rangeKey "alice" ≠ rangeKey "bob" :=
  rangeKey_owner_injective "alice" "bob" (by decide)

/-! ### ChainService (src/unnamed/part_000) -/

/-- An owned interval as the `ChainService` sees it: `{token, start, end}`
(spec §2). -/
structure Interval where
  token : Int
  start : Int
  «end» : Int
  deriving Repr, DecidableEq

/-- The size `(end - start)` of an interval. -/
def Interval.size (i : Interval) : Int := i.«end» - i.start

/-- Lookup in a token → balance association list (the JS object used by
`getBalances`, keys in insertion order). -/
def lookupBal (t : Int) : List (Int × Int) → Option Int
  | [] => none
  | (k, v) :: rest => if k = t then some v else lookupBal t rest

/-- The loop body of `ChainService.getBalances` (src/unnamed/part_000):
initialise an unseen token's balance to zero, then add the range's size to
its token's balance. -/
def addBalance (balances : List (Int × Int)) (r : Interval) :
    List (Int × Int) :=
  let bs := if balances.any fun p => decide (p.1 = r.token) then balances
            else balances ++ [(r.token, 0)]
  bs.map fun p => if p.1 = r.token then (p.1, p.2 + r.size) else p

/-- Shallow embedding of `ChainService.getBalances`
(src/unnamed/part_000): folds the ranges returned by
`getOwnedRanges(address)` into a token → balance map. -/
def getBalances (ranges : List Interval) : List (Int × Int) :=
  ranges.foldl addBalance []

/-- The sum of `(end - start)` over the intervals of one token. -/
def tokenTotal (ranges : List Interval) (t : Int) : Int :=
  ((ranges.filter fun r => decide (r.token = t)).map Interval.size).sum

example :
    getBalances [⟨7, 0, 100⟩, ⟨7, 200, 205⟩, ⟨9, 10, 20⟩] =
      [(7, 105), (9, 10)] := rfl

theorem lookupBal_update (t tok s : Int) (l : List (Int × Int)) :
    lookupBal t (l.map fun p => if p.1 = tok then (p.1, p.2 + s) else p) =
      if t = tok then (lookupBal t l).map (· + s) else lookupBal t l := by
  induction l with
  | nil => by_cases h : t = tok <;> simp [lookupBal, h]
  | cons p l ih =>
    obtain ⟨k, v⟩ := p
    rw [List.map_cons]
    by_cases hk : k = tok
    · subst hk
      have hhead : (if ((k, v) : Int × Int).1 = k then ((k, v).1, (k, v).2 + s)
          else (k, v)) = (k, v + s) := by simp
      rw [hhead]
      by_cases ht : t = k
      · subst ht
        rw [lookupBal, if_pos rfl, if_pos rfl, lookupBal, if_pos rfl]
        rfl
      · have ht2 : ¬(k = t) := fun h => ht h.symm
        rw [lookupBal, if_neg ht2, ih, if_neg ht, if_neg ht, lookupBal,
          if_neg ht2]
    · have hhead : (if ((k, v) : Int × Int).1 = tok then ((k, v).1, (k, v).2 + s)
          else (k, v)) = (k, v) := by simp [hk]
      rw [hhead]
      by_cases ht : t = k
      · subst ht
        have hk2 : ¬(t = tok) := hk
        rw [lookupBal, if_pos rfl, if_neg hk2, lookupBal, if_pos rfl]
      · have ht2 : ¬(k = t) := fun h => ht h.symm
        rw [lookupBal, if_neg ht2, ih]
        by_cases htk : t = tok
        · rw [if_pos htk, if_pos htk, lookupBal, if_neg ht2]
        · rw [if_neg htk, if_neg htk, lookupBal, if_neg ht2]

theorem lookupBal_append (t : Int) (l1 l2 : List (Int × Int)) :
    lookupBal t (l1 ++ l2) =
      match lookupBal t l1 with
      | some v => some v
      | none => lookupBal t l2 := by
  induction l1 with
  | nil => simp [lookupBal]
  | cons p l ih =>
    obtain ⟨k, v⟩ := p
    by_cases hk : k = t <;> simp [lookupBal, hk, ih]

theorem any_eq_false_iff_lookupBal (t : Int) (l : List (Int × Int)) :
    (l.any fun p => decide (p.1 = t)) = false ↔ lookupBal t l = none := by
  induction l with
  | nil => simp [lookupBal]
  | cons p l ih =>
    obtain ⟨k, v⟩ := p
    by_cases hk : k = t <;> simp [lookupBal, hk, ih]

theorem lookupBal_addBalance (t : Int) (r : Interval)
    (l : List (Int × Int)) :
    lookupBal t (addBalance l r) =
      if t = r.token then some ((lookupBal t l).getD 0 + r.size)
      else lookupBal t l := by
  rw [addBalance]
  by_cases hmem : (l.any fun p => decide (p.1 = r.token)) = false
  · simp only [hmem, Bool.false_eq_true, if_false, lookupBal_update]
    have hnone := (any_eq_false_iff_lookupBal r.token l).mp hmem
    by_cases ht : t = r.token
    · rw [if_pos ht, if_pos ht, ht, lookupBal_append, hnone]
      simp [lookupBal]
    · have ht2 : ¬(r.token = t) := fun h => ht h.symm
      rw [if_neg ht, if_neg ht, lookupBal_append]
      rcases hl : lookupBal t l with _ | v
      · simp [lookupBal, ht2]
      · rfl
  · rw [Bool.not_eq_false] at hmem
    simp only [hmem, if_true, lookupBal_update]
    by_cases ht : t = r.token
    · rw [if_pos ht, if_pos ht, ht]
      rcases hl : lookupBal r.token l with _ | v
      · exfalso
        have h2 := (any_eq_false_iff_lookupBal r.token l).mpr hl
        rw [hmem] at h2
        cases h2
      · rfl
    · rw [if_neg ht, if_neg ht]

theorem lookupBal_foldl (t : Int) :
    ∀ (ranges : List Interval) (acc : List (Int × Int)),
      lookupBal t (ranges.foldl addBalance acc) =
        if lookupBal t acc ≠ none ∨ ∃ r ∈ ranges, r.token = t
        then some ((lookupBal t acc).getD 0 + tokenTotal ranges t)
        else none := by
  intro ranges
  induction ranges with
  | nil =>
    intro acc
    rcases hl : lookupBal t acc with _ | v <;>
      simp [hl, tokenTotal]
  | cons r rest ih =>
    intro acc
    rw [List.foldl_cons, ih]
    by_cases ht : r.token = t
    · have h1 : lookupBal t (addBalance acc r) =
          some ((lookupBal t acc).getD 0 + r.size) := by
        rw [lookupBal_addBalance, if_pos ht.symm]
      have h2 : tokenTotal (r :: rest) t = r.size + tokenTotal rest t := by
        rw [tokenTotal, tokenTotal, List.filter_cons,
          if_pos (decide_eq_true ht), List.map_cons, List.sum_cons]
      rw [h1, if_pos (Or.inl (by simp)), if_pos (Or.inr ⟨r, by simp, ht⟩), h2]
      simp only [Option.getD_some]
      congr 1
      omega
    · have h1 : lookupBal t (addBalance acc r) = lookupBal t acc := by
        rw [lookupBal_addBalance, if_neg (fun h => ht h.symm)]
      have h2 : tokenTotal (r :: rest) t = tokenTotal rest t := by
        rw [tokenTotal, tokenTotal, List.filter_cons,
          if_neg (by simpa using ht)]
      have h3 : ((∃ x ∈ rest, x.token = t) ↔ ∃ x ∈ r :: rest, x.token = t) := by
        constructor
        · rintro ⟨x, hx, he⟩
          exact ⟨x, List.mem_cons_of_mem _ hx, he⟩
        · rintro ⟨x, hx, he⟩
          rcases List.mem_cons.mp hx with rfl | hx2
          · exact absurd he ht
          · exact ⟨x, hx2, he⟩
      rw [h1, h2]
      by_cases hc : lookupBal t acc ≠ none ∨ ∃ x ∈ rest, x.token = t
      · rw [if_pos hc, if_pos (by rw [← h3] at *; tauto)]
      · rw [if_neg hc, if_neg (by rw [← h3] at *; tauto)]

/-- C7: `getBalances` maps every owned token to the sum of `(end - start)`
over the owner's intervals for that token (as returned by
`getOwnedRanges`). -/
theorem getBalances_spec (ranges : List Interval) (t : Int)
    (h : ∃ r ∈ ranges, r.token = t) :
    lookupBal t (getBalances ranges) = some (tokenTotal ranges t) := by
  rw [getBalances, lookupBal_foldl, if_pos (Or.inr h)]
  simp [lookupBal]

/-- Witness for C7: two token-7 intervals and one token-9 interval. -/
theorem getBalances_spec_witness :
    lookupBal 7 (getBalances [⟨7, 0, 100⟩, ⟨7, 200, 205⟩, ⟨9, 10, 20⟩]) =
      some (tokenTotal [⟨7, 0, 100⟩, ⟨7, 200, 205⟩, ⟨9, 10, 20⟩] 7) :=
  getBalances_spec [⟨7, 0, 100⟩, ⟨7, 200, 205⟩, ⟨9, 10, 20⟩] 7 (by decide)

/-! ### C10: addTransaction rejects a bad proof before any mutation -/

/-- The errors `ChainService.addTransaction` can raise:
`invalidTransactionProof` models the JS
`throw new Error('Invalid transaction proof')`; `rangeError` wraps an
error propagated from the range manager. -/
inductive ChainError where
  | invalidTransactionProof
  | rangeError (e : RangeError)
  deriving Repr, DecidableEq

/-- One transfer of a transaction (src/unnamed/part_000). -/
structure Transfer where
  recipient : String
  token : Int
  start : Int
  «end» : Int

/-- A transaction as `addTransaction` consumes it; `hash` stands for the
externally computed `new UnsignedTransaction(transaction).hash` and
`encoded` for `transaction.encoded`. -/
structure Transaction where
  transfers : List Transfer
  hash : String
  encoded : String

/-- The state the `ChainService` acts on: the range manager's
per-(owner, token) range sets (spec §3) and the db's record store. -/
structure ChainState where
  rangeSets : String → Int → List Range
  records : String → Option String

/-- Update one (owner, token) range set. -/
def ChainState.setRanges (st : ChainState) (owner : String) (token : Int)
    (rs : List Range) : ChainState :=
  { st with rangeSets := fun o t =>
      if o = owner ∧ t = token then rs else st.rangeSets o t }

/-- Write one db record (`db.set`). -/
def ChainState.setRecord (st : ChainState) (k v : String) : ChainState :=
  { st with records := fun k2 => if k2 = k then some v else st.records k2 }

/-- Modelled from the spec: the transfer loop of `addTransaction`, which
forwards each transfer into
`rangeManager.addRange(transfer.recipient, {token, start, end})`.  A
failing `addRange` aborts the loop (JS sequential awaits). -/
def addTransfers : ChainState → List Transfer → ChainState × Option RangeError
  | st, [] => (st, none)
  | st, tr :: rest =>
    match addRange (st.rangeSets tr.recipient tr.token) ⟨tr.start, tr.«end»⟩ with
    | .error e => (st, some e)
    | .ok rs => addTransfers (st.setRanges tr.recipient tr.token rs) rest

/-- Shallow embedding of `ChainService.addTransaction`
(src/unnamed/part_000).  The outcome of the external
`proof.checkProof(transaction, deposits, proof)` collaborator is the
`proofOk` parameter.  When the check fails the call throws before touching
any state; otherwise every transfer's range is added and the
`transaction:` and `proof:` records are written. -/
def addTransaction (proofOk : Bool) (tx : Transaction) (proof : String)
    (st : ChainState) : ChainState × Option ChainError :=
  if !proofOk then (st, some .invalidTransactionProof)
  else
    match addTransfers st tx.transfers with
    | (st2, some e) => (st2, some (.rangeError e))
    | (st2, none) =>
      ((st2.setRecord ("transaction:" ++ tx.hash) tx.encoded).setRecord
          ("proof:" ++ tx.hash) proof, none)

/-- C10: when the proof check fails, `addTransaction` raises the
`Invalid transaction proof` error and the state is untouched: no range is
added for any recipient and no transaction or proof record is written. -/
theorem addTransaction_invalid_proof (tx : Transaction) (proof : String)
    (st : ChainState) :
    addTransaction false tx proof st = (st, some .invalidTransactionProof) :=
  rfl

end Plasma
